import Mathlib

/-!
Shallow embedding of the go-bigcomplex library (Gaussian integers and
Hurwitz quaternions over math/big).

Modelling conventions, faithful to the source:
* `big.Int` is embedded as `ℤ`; `big.Int.Rsh` is an arithmetic right shift,
  i.e. floor division by a power of two, embedded as `Int.fdiv`.
* `big.Float` values appearing in `Div`/`roundFloat` are embedded as exact
  rationals `ℚ` (the spec treats the arbitrary-precision float primitives as
  an exact supplied library); the bias constant `roundingDelta = 0.49` is the
  rational 49/100, and `big.Float.Int` truncates toward zero.
* `big.Float.Quo(0, 0)` panics with ErrNaN, and a quotient of a nonzero
  numerator by zero produces an infinity whose conversion to `big.Int` yields
  nil and a subsequent nil dereference panic; both failure modes of `Div`
  with a zero-norm divisor are embedded as `Option.none`.
* the unbounded `for` loops of `GCD`/`GCRD` are embedded with explicit fuel;
  `none` models both a division panic and non-termination within the fuel.
-/

namespace BigComplex

/-- the rounding bias constant `roundingDelta = 0.49` from constant.go. -/
def roundingDelta : ℚ := 49 / 100

/-- truncation toward zero, the behaviour of `big.Float.Int`, computed as
the truncating integer division of the reduced numerator by the
denominator. -/
def truncQ (q : ℚ) : ℤ := q.num.tdiv q.den

/-- roundFloat from rounding.go: add the bias 0.49 when the input is
non-negative, subtract it when negative, then truncate toward zero. -/
def roundFloat (f : ℚ) : ℤ :=
  if f < 0 then truncQ (f - roundingDelta) else truncQ (f + roundingDelta)

/-- GaussianInt from gaussian_integer.go: a complex number with integer real
and imaginary parts. -/
structure GaussianInt where
  R : ℤ
  I : ℤ
  deriving DecidableEq, Repr

namespace GaussianInt

/-- Add from gaussian_integer.go: componentwise sum. -/
def Add (a b : GaussianInt) : GaussianInt := ⟨a.R + b.R, a.I + b.I⟩

/-- Sub from gaussian_integer.go: componentwise difference. -/
def Sub (a b : GaussianInt) : GaussianInt := ⟨a.R - b.R, a.I - b.I⟩

/-- Prod from gaussian_integer.go: complex multiplication. -/
def Prod (a b : GaussianInt) : GaussianInt :=
  ⟨a.R * b.R - a.I * b.I, a.R * b.I + a.I * b.R⟩

/-- Conj from gaussian_integer.go: negate the imaginary part. -/
def Conj (g : GaussianInt) : GaussianInt := ⟨g.R, -g.I⟩

/-- Norm from gaussian_integer.go: R^2 + I^2. -/
def Norm (g : GaussianInt) : ℤ := g.R * g.R + g.I * g.I

/-- IsZero from gaussian_integer.go: both signs are zero. -/
def IsZero (g : GaussianInt) : Bool := g.R == 0 && g.I == 0

/-- IsOne from gaussian_integer.go: the real part has sign 1 and the
imaginary part has sign 0. -/
def IsOne (g : GaussianInt) : Bool := decide (0 < g.R) && (g.I == 0)

/-- Equals from gaussian_integer.go. -/
def Equals (g a : GaussianInt) : Bool := g.R == a.R && g.I == a.I

/-- CmpNorm from gaussian_integer.go: three-way comparison of norms. -/
def CmpNorm (g a : GaussianInt) : ℤ :=
  if Norm g < Norm a then -1 else if Norm g = Norm a then 0 else 1

/-- the integer quotient computed inside Div: numerator = a * Conj b,
denominator = b * Conj b, and each exact rational quotient component is
rounded with roundFloat. -/
def quot (a b : GaussianInt) : GaussianInt :=
  ⟨roundFloat (((Prod a (Conj b)).R : ℚ) / ((Prod b (Conj b)).R : ℚ)),
    roundFloat (((Prod a (Conj b)).I : ℚ) / ((Prod b (Conj b)).R : ℚ))⟩

/-- Div from gaussian_integer.go: Euclidean division a/b. Computes
numerator = a * Conj b and denominator = b * Conj b, rounds the two exact
rational quotient components with roundFloat, and returns the quotient
together with the remainder a - quotient * b (the source stores the
remainder in the receiver). A zero denominator (that is, b = 0) makes
big.Float.Quo panic, embedded as none. -/
def Div (a b : GaussianInt) : Option (GaussianInt × GaussianInt) :=
  if (Prod b (Conj b)).R = 0 then none
  else some (quot a b, Sub a (Prod (quot a b) b))

/-- the Euclidean loop of GCD from gaussian_integer.go, with explicit fuel
standing in for the unbounded for loop. -/
def gcdLoop : ℕ → GaussianInt → GaussianInt → Option GaussianInt
  | 0, _, _ => none
  | fuel + 1, ac, bc =>
    match Div ac bc with
    | none => none
    | some (_, r) => if IsZero r then some bc else gcdLoop fuel bc r

/-- GCD from gaussian_integer.go: swap so the larger-norm operand is divided
first, then run the Euclidean loop. -/
def GCD (fuel : ℕ) (a b : GaussianInt) : Option GaussianInt :=
  if CmpNorm a b < 0 then gcdLoop fuel b a else gcdLoop fuel a b

end GaussianInt

/-- HurwitzInt from hurwitz_integer.go: a Hurwitz quaternion stored via its
four doubled scalars. -/
structure HurwitzInt where
  dblR : ℤ
  dblI : ℤ
  dblJ : ℤ
  dblK : ℤ
  deriving DecidableEq, Repr

namespace HurwitzInt

/-- the representation invariant stated in the source comment: the four true
scalars are all integers or all half-integers, i.e. the doubled components
share one parity. -/
def SameParity (h : HurwitzInt) : Prop :=
  h.dblR % 2 = h.dblI % 2 ∧ h.dblR % 2 = h.dblJ % 2 ∧ h.dblR % 2 = h.dblK % 2

instance (h : HurwitzInt) : Decidable (SameParity h) := by
  unfold SameParity; infer_instance

/-- Add from hurwitz_integer.go: componentwise sum of doubled scalars. -/
def Add (a b : HurwitzInt) : HurwitzInt :=
  ⟨a.dblR + b.dblR, a.dblI + b.dblI, a.dblJ + b.dblJ, a.dblK + b.dblK⟩

/-- Sub from hurwitz_integer.go: componentwise difference. -/
def Sub (a b : HurwitzInt) : HurwitzInt :=
  ⟨a.dblR - b.dblR, a.dblI - b.dblI, a.dblJ - b.dblJ, a.dblK - b.dblK⟩

/-- Conj from hurwitz_integer.go: negate the i, j, k parts. -/
def Conj (h : HurwitzInt) : HurwitzInt := ⟨h.dblR, -h.dblI, -h.dblJ, -h.dblK⟩

/-- the pre-shift real component of the Hamilton product in Prod. -/
def prodPreR (a b : HurwitzInt) : ℤ :=
  a.dblR * b.dblR - a.dblI * b.dblI - a.dblJ * b.dblJ - a.dblK * b.dblK

/-- the pre-shift i component of the Hamilton product in Prod. -/
def prodPreI (a b : HurwitzInt) : ℤ :=
  a.dblR * b.dblI + a.dblI * b.dblR + a.dblJ * b.dblK - a.dblK * b.dblJ

/-- the pre-shift j component of the Hamilton product in Prod. -/
def prodPreJ (a b : HurwitzInt) : ℤ :=
  a.dblR * b.dblJ - a.dblI * b.dblK + a.dblJ * b.dblR + a.dblK * b.dblI

/-- the pre-shift k component of the Hamilton product in Prod. -/
def prodPreK (a b : HurwitzInt) : ℤ :=
  a.dblR * b.dblK + a.dblI * b.dblJ - a.dblJ * b.dblI + a.dblK * b.dblR

/-- Prod from hurwitz_integer.go: Hamilton product on doubled components,
each combination right-shifted by one bit (arithmetic shift = floor
division by 2). -/
def Prod (a b : HurwitzInt) : HurwitzInt :=
  ⟨(prodPreR a b).fdiv 2, (prodPreI a b).fdiv 2,
    (prodPreJ a b).fdiv 2, (prodPreK a b).fdiv 2⟩

/-- Norm from hurwitz_integer.go: sum of squares of the doubled components,
right-shifted by two bits. -/
def Norm (h : HurwitzInt) : ℤ :=
  (h.dblR * h.dblR + h.dblI * h.dblI + h.dblJ * h.dblJ + h.dblK * h.dblK).fdiv 4

/-- IsZero from hurwitz_integer.go. -/
def IsZero (h : HurwitzInt) : Bool :=
  h.dblR == 0 && h.dblI == 0 && h.dblJ == 0 && h.dblK == 0

/-- CmpNorm from hurwitz_integer.go. -/
def CmpNorm (h a : HurwitzInt) : ℤ :=
  if Norm h < Norm a then -1 else if Norm h = Norm a then 0 else 1

/-- Val from hurwitz_integer.go: the true (non-doubled) scalar values. -/
def Val (h : HurwitzInt) : ℚ × ℚ × ℚ × ℚ :=
  ((h.dblR : ℚ) / 2, (h.dblI : ℚ) / 2, (h.dblJ : ℚ) / 2, (h.dblK : ℚ) / 2)

/-- ValInt from hurwitz_integer.go: each true scalar value rounded with
roundFloat. -/
def ValInt (h : HurwitzInt) : ℤ × ℤ × ℤ × ℤ :=
  (roundFloat ((h.dblR : ℚ) / 2), roundFloat ((h.dblI : ℚ) / 2),
    roundFloat ((h.dblJ : ℚ) / 2), roundFloat ((h.dblK : ℚ) / 2))

/-- the integer quaternion quotient computed inside Div: with
numerator = a * Conj b and denominator = b * Conj b, each of the four exact
rational scalar quotient components is rounded to an integer with
roundFloat, and the quotient is built with the doubled=false constructor
(doubling the rounded integers). -/
def quot (a b : HurwitzInt) : HurwitzInt :=
  ⟨2 * roundFloat (((Prod a (Conj b)).dblR : ℚ) / ((Prod b (Conj b)).dblR : ℚ)),
    2 * roundFloat (((Prod a (Conj b)).dblI : ℚ) / ((Prod b (Conj b)).dblR : ℚ)),
    2 * roundFloat (((Prod a (Conj b)).dblJ : ℚ) / ((Prod b (Conj b)).dblR : ℚ)),
    2 * roundFloat (((Prod a (Conj b)).dblK : ℚ) / ((Prod b (Conj b)).dblR : ℚ))⟩

/-- Div from hurwitz_integer.go: right Euclidean division a/b, returning
the quotient together with the remainder a - quotient * b (the source
stores the remainder in the receiver). A zero doubled real part of the
denominator sends big.Float arithmetic into a panic (ErrNaN on 0/0, or a
nil big.Int converted from an infinity), embedded as none. -/
def Div (a b : HurwitzInt) : Option (HurwitzInt × HurwitzInt) :=
  if (Prod b (Conj b)).dblR = 0 then none
  else some (quot a b, Sub a (Prod (quot a b) b))

/-- the Euclidean loop of GCRD from hurwitz_integer.go, with explicit
fuel. -/
def gcrdLoop : ℕ → HurwitzInt → HurwitzInt → Option HurwitzInt
  | 0, _, _ => none
  | fuel + 1, ac, bc =>
    match Div ac bc with
    | none => none
    | some (_, r) => if IsZero r then some bc else gcrdLoop fuel bc r

/-- GCRD from hurwitz_integer.go: swap so the larger-norm operand is
divided first, then run the right-division Euclidean loop. -/
def GCRD (fuel : ℕ) (a b : HurwitzInt) : Option HurwitzInt :=
  if CmpNorm a b < 0 then gcrdLoop fuel b a else gcrdLoop fuel a b

end HurwitzInt

/-! Helper lemmas about the rounding utility. -/

/-- truncQ is the ceiling on negative inputs and the floor otherwise. -/
theorem truncQ_eq (q : ℚ) : truncQ q = if q < 0 then ⌈q⌉ else ⌊q⌋ := by
  unfold truncQ
  by_cases hq : q < 0
  · rw [if_pos hq]
    have hnum : q.num < 0 := by
      by_contra hnn
      exact absurd (Rat.num_nonneg.mp (by omega)) (not_le.mpr hq)
    have h1 : q.num.tdiv q.den = -((-q.num).tdiv q.den) := by
      rw [Int.neg_tdiv]; omega
    rw [h1, Int.tdiv_eq_ediv (by omega) (by positivity)]
    have h2 : ⌈q⌉ = -⌊-q⌋ := by
      rw [show q = -(-q) by ring, Int.ceil_neg]
      ring_nf
    rw [h2, Rat.floor_def, Rat.neg_num, Rat.neg_den]
  · rw [if_neg hq]
    have hnum : 0 ≤ q.num := Rat.num_nonneg.mpr (not_lt.mp hq)
    rw [Int.tdiv_eq_ediv hnum (by positivity), Rat.floor_def]

/-- roundFloat returns the unique integer within 49/100 of the input. -/
theorem roundFloat_close (q : ℚ) (m : ℤ) (h : |q - (m : ℚ)| ≤ 49 / 100) :
    roundFloat q = m := by
  have hb := abs_le.mp h
  unfold roundFloat roundingDelta
  rw [truncQ_eq, truncQ_eq]
  by_cases hq : q < 0
  · have hlt : q - 49 / 100 < 0 := by linarith
    simp only [if_pos hq, if_pos hlt]
    rw [Int.ceil_eq_iff]
    constructor <;> push_cast <;> linarith [hb.1, hb.2]
  · have hq0 : 0 ≤ q := le_of_not_lt hq
    have hge : ¬ (q + 49 / 100 < 0) := by push_neg; linarith
    simp only [if_neg hq, if_neg hge]
    rw [Int.floor_eq_iff]
    constructor <;> push_cast <;> linarith [hb.1, hb.2]

/-- roundFloat is exact on integers. -/
theorem roundFloat_int (m : ℤ) : roundFloat (m : ℚ) = m :=
  roundFloat_close _ _ (by norm_num)

/-- the rounding error of roundFloat is strictly below 51/100 in absolute
value. -/
theorem roundFloat_err (q : ℚ) :
    -(51 / 100) < q - (roundFloat q : ℚ) ∧ q - (roundFloat q : ℚ) < 51 / 100 := by
  unfold roundFloat roundingDelta
  rw [truncQ_eq, truncQ_eq]
  by_cases hq : q < 0
  · have hlt : q - 49 / 100 < 0 := by linarith
    simp only [if_pos hq, if_pos hlt]
    have h1 := Int.le_ceil (q - 49 / 100)
    have h2 := Int.ceil_lt_add_one (q - 49 / 100)
    constructor <;> linarith
  · have hq0 : 0 ≤ q := le_of_not_lt hq
    have hge : ¬ (q + 49 / 100 < 0) := by push_neg; linarith
    simp only [if_neg hq, if_neg hge]
    have h1 := Int.floor_le (q + 49 / 100)
    have h2 := Int.lt_floor_add_one (q + 49 / 100)
    constructor <;> linarith

/-- roundFloat truncates an exact half toward zero: on the non-negative side
a value t + 1/2 rounds down to t. -/
theorem roundFloat_half_nonneg (t : ℤ) (ht : 0 ≤ t) :
    roundFloat ((t : ℚ) + 1 / 2) = t := by
  unfold roundFloat roundingDelta
  rw [truncQ_eq, truncQ_eq]
  have hq : ¬ ((t : ℚ) + 1 / 2 < 0) := by
    push_neg; have : (0 : ℚ) ≤ t := by exact_mod_cast ht
    linarith
  have hge : ¬ ((t : ℚ) + 1 / 2 + 49 / 100 < 0) := by
    push_neg; have : (0 : ℚ) ≤ t := by exact_mod_cast ht
    linarith
  simp only [if_neg hq, if_neg hge]
  rw [Int.floor_eq_iff]
  constructor <;> push_cast <;> linarith

/-- roundFloat truncates an exact half toward zero: on the negative side a
value t + 1/2 with t < 0 rounds up to t + 1. -/
theorem roundFloat_half_neg (t : ℤ) (ht : t < 0) :
    roundFloat ((t : ℚ) + 1 / 2) = t + 1 := by
  unfold roundFloat roundingDelta
  rw [truncQ_eq, truncQ_eq]
  have htq : (t : ℚ) ≤ -1 := by
    have : t ≤ -1 := by omega
    exact_mod_cast this
  have hq : (t : ℚ) + 1 / 2 < 0 := by linarith
  have hlt : (t : ℚ) + 1 / 2 - 49 / 100 < 0 := by linarith
  simp only [if_pos hq, if_pos hlt]
  rw [Int.ceil_eq_iff]
  constructor <;> push_cast <;> linarith

end BigComplex
namespace BigComplex

theorem gauss_bound (aR aI bR bI q1 q2 : ℤ) (N : ℤ)
    (hN : N = bR * bR + bI * bI) (hpos : 0 < N)
    (hq1 : q1 = roundFloat (((aR * bR + aI * bI : ℤ) : ℚ) / (N : ℚ)))
    (hq2 : q2 = roundFloat (((aI * bR - aR * bI : ℤ) : ℚ) / (N : ℚ))) :
    (aR - (q1 * bR - q2 * bI)) * (aR - (q1 * bR - q2 * bI))
      + (aI - (q1 * bI + q2 * bR)) * (aI - (q1 * bI + q2 * bR)) < N := by
  have hNq : (0 : ℚ) < (N : ℚ) := by exact_mod_cast hpos
  have hNq0 : (N : ℚ) ≠ 0 := ne_of_gt hNq
  set x1 : ℚ := ((aR * bR + aI * bI : ℤ) : ℚ) / (N : ℚ) with hx1
  set x2 : ℚ := ((aI * bR - aR * bI : ℤ) : ℚ) / (N : ℚ) with hx2
  have hb1 := roundFloat_err x1
  have hb2 := roundFloat_err x2
  rw [← hq1] at hb1
  rw [← hq2] at hb2
  set e1 : ℚ := x1 - (q1 : ℚ) with he1
  set e2 : ℚ := x2 - (q2 : ℚ) with he2
  have hcR : ((aR : ℚ) - ((q1 : ℚ) * bR - (q2 : ℚ) * bI)) = e1 * bR - e2 * bI := by
    rw [he1, he2, hx1, hx2]
    have hNcast : ((N : ℤ) : ℚ) = (bR : ℚ) * bR + (bI : ℚ) * bI := by
      rw [hN]; push_cast; ring
    field_simp
    rw [hNcast]
    push_cast
    ring
  have hcI : ((aI : ℚ) - ((q1 : ℚ) * bI + (q2 : ℚ) * bR)) = e1 * bI + e2 * bR := by
    rw [he1, he2, hx1, hx2]
    have hNcast : ((N : ℤ) : ℚ) = (bR : ℚ) * bR + (bI : ℚ) * bI := by
      rw [hN]; push_cast; ring
    field_simp
    rw [hNcast]
    push_cast
    ring
  have key : ((aR - (q1 * bR - q2 * bI)) * (aR - (q1 * bR - q2 * bI))
      + (aI - (q1 * bI + q2 * bR)) * (aI - (q1 * bI + q2 * bR)) : ℚ)
      = (e1 * e1 + e2 * e2) * (N : ℚ) := by
    push_cast
    rw [hcR, hcI]
    have hNcast : ((N : ℤ) : ℚ) = (bR : ℚ) * bR + (bI : ℚ) * bI := by
      rw [hN]; push_cast; ring
    rw [hNcast]
    ring
  have hs1 : e1 * e1 < (51 / 100) * (51 / 100) := by nlinarith [hb1.1, hb1.2]
  have hs2 : e2 * e2 < (51 / 100) * (51 / 100) := by nlinarith [hb2.1, hb2.2]
  have hsum : e1 * e1 + e2 * e2 < 1 := by nlinarith
  have hmul := mul_lt_mul_of_pos_right hsum hNq
  rw [one_mul] at hmul
  have hlt : ((aR - (q1 * bR - q2 * bI)) * (aR - (q1 * bR - q2 * bI))
      + (aI - (q1 * bI + q2 * bR)) * (aI - (q1 * bI + q2 * bR)) : ℚ) < (N : ℚ) := by
    rw [key]; exact hmul
  exact_mod_cast hlt

end BigComplex

namespace BigComplex
namespace GaussianInt

theorem norm_nonneg' (g : GaussianInt) : 0 ≤ Norm g := by
  unfold Norm
  nlinarith [mul_self_nonneg g.R, mul_self_nonneg g.I]

theorem norm_pos {b : GaussianInt} (hb : b ≠ ⟨0, 0⟩) : 0 < Norm b := by
  obtain ⟨x, y⟩ := b
  have hxy : x ≠ 0 ∨ y ≠ 0 := by
    by_contra hc
    push_neg at hc
    exact hb (by simp [hc.1, hc.2])
  unfold Norm
  rcases hxy with hx | hy
  · have := mul_self_pos.mpr hx
    nlinarith [mul_self_nonneg y]
  · have := mul_self_pos.mpr hy
    nlinarith [mul_self_nonneg x]

theorem add_prod_sub (a x : GaussianInt) : Add x (Sub a x) = a := by
  obtain ⟨p, q⟩ := a; obtain ⟨u, v⟩ := x
  simp [Add, Sub]

theorem denom_R (b : GaussianInt) : (Prod b (Conj b)).R = Norm b := by
  obtain ⟨x, y⟩ := b
  simp [Prod, Conj, Norm]

theorem div_eq_some (a b : GaussianInt) (hb : b ≠ ⟨0, 0⟩) :
    Div a b = some (quot a b, Sub a (Prod (quot a b) b)) := by
  have hNne : ¬ ((Prod b (Conj b)).R = 0) := by
    rw [denom_R]; have := norm_pos hb; omega
  unfold Div
  rw [if_neg hNne]

theorem div_spec (a b : GaussianInt) (hb : b ≠ ⟨0, 0⟩) :
    ∃ q r, Div a b = some (q, r) ∧ a = Add (Prod q b) r ∧ Norm r < Norm b := by
  refine ⟨quot a b, Sub a (Prod (quot a b) b), div_eq_some a b hb, (add_prod_sub a _).symm, ?_⟩
  have hpos := norm_pos hb
  obtain ⟨aR, aI⟩ := a
  obtain ⟨bR, bI⟩ := b
  have hq1 : (quot ⟨aR, aI⟩ ⟨bR, bI⟩).R
      = roundFloat (((aR * bR + aI * bI : ℤ) : ℚ) / ((Norm ⟨bR, bI⟩ : ℤ) : ℚ)) := by
    simp [quot, Prod, Conj, Norm]
  have hq2 : (quot ⟨aR, aI⟩ ⟨bR, bI⟩).I
      = roundFloat (((aI * bR - aR * bI : ℤ) : ℚ) / ((Norm ⟨bR, bI⟩ : ℤ) : ℚ)) := by
    simp only [quot, Prod, Conj, Norm]
    norm_num
    ring_nf
  have hb' := gauss_bound aR aI bR bI (quot ⟨aR, aI⟩ ⟨bR, bI⟩).R (quot ⟨aR, aI⟩ ⟨bR, bI⟩).I
    (Norm ⟨bR, bI⟩) rfl hpos hq1 hq2
  simpa [Norm, Sub, Prod] using hb'

end GaussianInt
end BigComplex

namespace BigComplex
namespace GaussianInt

theorem isZero_iff (g : GaussianInt) : IsZero g = true ↔ g = ⟨0, 0⟩ := by
  obtain ⟨x, y⟩ := g
  simp [IsZero]

theorem prod_assoc (x y z : GaussianInt) : Prod x (Prod y z) = Prod (Prod x y) z := by
  obtain ⟨a, b⟩ := x; obtain ⟨c, d⟩ := y; obtain ⟨e, f⟩ := z
  simp only [Prod, mk.injEq]
  constructor <;> ring

theorem prod_add (x y z : GaussianInt) : Prod (Add x y) z = Add (Prod x z) (Prod y z) := by
  obtain ⟨a, b⟩ := x; obtain ⟨c, d⟩ := y; obtain ⟨e, f⟩ := z
  simp only [Prod, Add, mk.injEq]
  constructor <;> ring

/-- division of an exact multiple m * d by d recovers m with zero
remainder: the true quotient components are the integers m.R and m.I, on
which roundFloat is exact. -/
theorem div_exact (d m : GaussianInt) (hd : d ≠ ⟨0, 0⟩) :
    Div (Prod m d) d = some (m, ⟨0, 0⟩) := by
  have hpos := norm_pos hd
  have hq : quot (Prod m d) d = m := by
    obtain ⟨mR, mI⟩ := m
    obtain ⟨dR, dI⟩ := d
    have hN : 0 < dR * dR + dI * dI := by simpa [Norm] using hpos
    have hNq0 : ((dR * dR + dI * dI : ℤ) : ℚ) ≠ 0 := by
      have : (0:ℚ) < ((dR * dR + dI * dI : ℤ) : ℚ) := by exact_mod_cast hN
      exact ne_of_gt this
    simp only [quot, Prod, Conj, mk.injEq]
    constructor
    · rw [show ((mR * dR - mI * dI) * dR - (mR * dI + mI * dR) * -dI : ℤ)
          = mR * (dR * dR + dI * dI) by ring,
        show ((dR * dR - dI * -dI) : ℤ) = dR * dR + dI * dI by ring,
        show (((mR * (dR * dR + dI * dI) : ℤ)) : ℚ) / (((dR * dR + dI * dI : ℤ)) : ℚ)
          = (mR : ℚ) by push_cast; push_cast at hNq0; field_simp]
      exact roundFloat_int mR
    · rw [show ((mR * dR - mI * dI) * -dI + (mR * dI + mI * dR) * dR : ℤ)
          = mI * (dR * dR + dI * dI) by ring,
        show ((dR * dR - dI * -dI) : ℤ) = dR * dR + dI * dI by ring,
        show (((mI * (dR * dR + dI * dI) : ℤ)) : ℚ) / (((dR * dR + dI * dI : ℤ)) : ℚ)
          = (mI : ℚ) by push_cast; push_cast at hNq0; field_simp]
      exact roundFloat_int mI
  have := div_eq_some (Prod m d) d hd
  rw [hq] at this
  rw [this]
  have : Sub (Prod m d) (Prod m d) = (⟨0, 0⟩ : GaussianInt) := by
    simp [Sub]
  rw [this]

end GaussianInt
end BigComplex

namespace BigComplex
namespace GaussianInt

theorem sub_eq_zero_iff (x y : GaussianInt) : Sub x y = ⟨0, 0⟩ ↔ x = y := by
  obtain ⟨a, b⟩ := x; obtain ⟨c, d⟩ := y
  simp only [Sub, mk.injEq]
  omega

/-- a nonzero divisor hypothesis recovered from a successful Div. -/
theorem div_some_nonzero {a b : GaussianInt} {p : GaussianInt × GaussianInt}
    (h : Div a b = some p) : b ≠ ⟨0, 0⟩ := by
  intro hb
  subst hb
  simp [Div, Prod, Conj] at h

theorem div_some_eq {a b : GaussianInt} {q r : GaussianInt}
    (h : Div a b = some (q, r)) : q = quot a b ∧ r = Sub a (Prod (quot a b) b) := by
  have hb := div_some_nonzero h
  rw [div_eq_some a b hb] at h
  have h2 := Option.some.inj h
  exact ⟨(Prod.mk.inj h2).1.symm, (Prod.mk.inj h2).2.symm⟩

/-- recovery of an exact factorization from a zero Div remainder. -/
theorem div_zero_rem_factor {x d m : GaussianInt}
    (h : Div x d = some (m, ⟨0, 0⟩)) : x = Prod m d := by
  obtain ⟨hq, hr⟩ := div_some_eq h
  rw [← hq] at hr
  exact (sub_eq_zero_iff x (Prod m d)).mp hr.symm

theorem prod_one_left (g : GaussianInt) : Prod ⟨1, 0⟩ g = g := by
  obtain ⟨x, y⟩ := g
  simp [Prod]

/-- whatever the Euclidean loop returns divides both working values, with a
zero Div remainder. -/
theorem gcdLoop_divides : ∀ (fuel : ℕ) (ac bc g : GaussianInt),
    gcdLoop fuel ac bc = some g →
    g ≠ ⟨0, 0⟩ ∧ (∃ m, Div ac g = some (m, ⟨0, 0⟩)) ∧ (∃ m, Div bc g = some (m, ⟨0, 0⟩)) := by
  intro fuel
  induction fuel with
  | zero => intro ac bc g h; simp [gcdLoop] at h
  | succ n ih =>
    intro ac bc g h
    rw [gcdLoop] at h
    cases hdiv : Div ac bc with
    | none => rw [hdiv] at h; simp at h
    | some p =>
      obtain ⟨q, r⟩ := p
      rw [hdiv] at h
      simp only at h
      have hbc : bc ≠ ⟨0, 0⟩ := div_some_nonzero hdiv
      by_cases hz : IsZero r
      · rw [if_pos hz] at h
        have hg : g = bc := (Option.some.inj h).symm
        subst hg
        have hr0 : r = ⟨0, 0⟩ := (isZero_iff r).mp hz
        refine ⟨hbc, ⟨q, ?_⟩, ⟨⟨1, 0⟩, ?_⟩⟩
        · rw [hdiv, hr0]
        · have hde := div_exact g ⟨1, 0⟩ hbc
          rw [prod_one_left] at hde
          exact hde
      · rw [if_neg hz] at h
        obtain ⟨hg0, ⟨m1, hm1⟩, ⟨m2, hm2⟩⟩ := ih bc r g h
        refine ⟨hg0, ?_, ⟨m1, hm1⟩⟩
        obtain ⟨hq, hr⟩ := div_some_eq hdiv
        have hac : ac = Add (Prod q bc) r := by
          rw [hr, hq]
          exact (add_prod_sub ac _).symm
        have hbc_eq : bc = Prod m1 g := div_zero_rem_factor hm1
        have hr_eq : r = Prod m2 g := div_zero_rem_factor hm2
        have hfact : ac = Prod (Add (Prod q m1) m2) g := by
          rw [hac, hbc_eq, hr_eq, prod_assoc, prod_add]
        rw [hfact]
        exact ⟨_, div_exact g (Add (Prod q m1) m2) hg0⟩

end GaussianInt
end BigComplex

namespace BigComplex
namespace GaussianInt

theorem norm_eq_zero {b : GaussianInt} (h : Norm b = 0) : b = ⟨0, 0⟩ := by
  by_contra hb
  have := norm_pos hb
  omega

theorem div_rem_bound {ac bc q r : GaussianInt} (h : Div ac bc = some (q, r)) :
    Norm r < Norm bc := by
  have hbc := div_some_nonzero h
  obtain ⟨q', r', heq, _, hlt⟩ := div_spec ac bc hbc
  rw [heq] at h
  have h2 := Option.some.inj h
  rw [← (Prod.mk.inj h2).2]
  exact hlt

theorem gcdLoop_total : ∀ (fuel : ℕ) (ac bc : GaussianInt), bc ≠ ⟨0, 0⟩ →
    (Norm bc).toNat < fuel → (gcdLoop fuel ac bc).isSome = true := by
  intro fuel
  induction fuel with
  | zero => intro ac bc hbc hf; omega
  | succ n ih =>
    intro ac bc hbc hf
    rw [gcdLoop]
    obtain ⟨q, r, heq, _, hlt⟩ := div_spec ac bc hbc
    rw [heq]
    simp only
    by_cases hz : IsZero r
    · rw [if_pos hz]; rfl
    · rw [if_neg hz]
      apply ih bc r
      · intro h0; exact hz ((isZero_iff r).mpr h0)
      · have h1 : 0 < Norm bc := norm_pos hbc
        have h2 : 0 ≤ Norm r := norm_nonneg' r
        omega

theorem div_zero_right (a : GaussianInt) : Div a ⟨0, 0⟩ = none := by
  simp [Div, Prod, Conj]

theorem gcdLoop_zero_right : ∀ (fuel : ℕ) (ac : GaussianInt),
    gcdLoop fuel ac ⟨0, 0⟩ = none := by
  intro fuel ac
  cases fuel with
  | zero => rfl
  | succ n => rw [gcdLoop, div_zero_right]

theorem gcd_zero_right (fuel : ℕ) (a : GaussianInt) : GCD fuel a ⟨0, 0⟩ = none := by
  unfold GCD
  have hcmp : ¬ (CmpNorm a ⟨0, 0⟩ < 0) := by
    unfold CmpNorm
    have h0 : Norm (⟨0, 0⟩ : GaussianInt) = 0 := by simp [Norm]
    have h1 : 0 ≤ Norm a := norm_nonneg' a
    rw [h0]
    split
    · omega
    · split <;> omega
  rw [if_neg hcmp]
  exact gcdLoop_zero_right fuel a

theorem gcd_zero_left (fuel : ℕ) (b : GaussianInt) : GCD fuel ⟨0, 0⟩ b = none := by
  unfold GCD
  split
  · exact gcdLoop_zero_right fuel b
  · rename_i hcmp
    have h0 : Norm (⟨0, 0⟩ : GaussianInt) = 0 := by simp [Norm]
    have hb0 : b = ⟨0, 0⟩ := by
      apply norm_eq_zero
      unfold CmpNorm at hcmp
      rw [h0] at hcmp
      have h1 : 0 ≤ Norm b := norm_nonneg' b
      by_contra hne
      rw [if_pos] at hcmp
      · omega
      · omega
    rw [hb0]
    exact gcdLoop_zero_right fuel _

theorem gcd_divides (fuel : ℕ) (a b g : GaussianInt) (h : GCD fuel a b = some g) :
    g ≠ ⟨0, 0⟩ ∧ (∃ m, Div a g = some (m, ⟨0, 0⟩)) ∧ (∃ m, Div b g = some (m, ⟨0, 0⟩)) := by
  unfold GCD at h
  by_cases hc : CmpNorm a b < 0
  · rw [if_pos hc] at h
    obtain ⟨h1, h2, h3⟩ := gcdLoop_divides fuel b a g h
    exact ⟨h1, h3, h2⟩
  · rw [if_neg hc] at h
    exact gcdLoop_divides fuel a b g h

theorem gcd_total (fuel : ℕ) (a b : GaussianInt) (ha : a ≠ ⟨0, 0⟩) (hb : b ≠ ⟨0, 0⟩)
    (hf : (Norm a).toNat + (Norm b).toNat < fuel) : (GCD fuel a b).isSome = true := by
  unfold GCD
  split
  · exact gcdLoop_total fuel b a ha (by omega)
  · exact gcdLoop_total fuel a b hb (by omega)

end GaussianInt
end BigComplex
namespace BigComplex

/-- equal remainders mod two follow from an even difference. -/
theorem emod_two_eq_of_dvd_sub {x y : ℤ} (h : 2 ∣ (x - y)) : x % 2 = y % 2 := by
  obtain ⟨k, hk⟩ := h
  omega

theorem fdiv_two_add (A B : ℤ) : (2 * A + B).fdiv 2 = A + B.fdiv 2 := by
  rw [Int.fdiv_eq_ediv _ (by norm_num), Int.fdiv_eq_ediv _ (by norm_num)]
  omega

namespace HurwitzInt

/-- an integer quaternion: every doubled component is even. -/
def DblEven (m : HurwitzInt) : Prop :=
  ∃ u1 u2 u3 u4 : ℤ, m = ⟨2 * u1, 2 * u2, 2 * u3, 2 * u4⟩

theorem isZero_iff_h (h : HurwitzInt) : IsZero h = true ↔ h = ⟨0, 0, 0, 0⟩ := by
  obtain ⟨x, y, z, w⟩ := h
  simp [IsZero]
  omega

theorem sub_eq_zero_iff_h (x y : HurwitzInt) : Sub x y = ⟨0, 0, 0, 0⟩ ↔ x = y := by
  obtain ⟨a, b, c, d⟩ := x; obtain ⟨e, f, g, k⟩ := y
  simp only [Sub, mk.injEq]
  omega

theorem add_prod_sub_h (a x : HurwitzInt) : Add x (Sub a x) = a := by
  obtain ⟨p, q, r, s⟩ := a; obtain ⟨u, v, w, t⟩ := x
  simp only [Add, Sub, mk.injEq]
  omega

/-- the parity invariant yields a uniform decomposition of the doubled
components as twice a half plus a shared parity bit. -/
theorem sameParity_decomp {h : HurwitzInt} (hs : SameParity h) :
    ∃ p u1 u2 u3 u4 : ℤ, (p = 0 ∨ p = 1) ∧ h.dblR = 2 * u1 + p ∧
      h.dblI = 2 * u2 + p ∧ h.dblJ = 2 * u3 + p ∧ h.dblK = 2 * u4 + p := by
  obtain ⟨h1, h2, h3⟩ := hs
  refine ⟨h.dblR % 2, h.dblR / 2, h.dblI / 2, h.dblJ / 2, h.dblK / 2, ?_, ?_, ?_, ?_, ?_⟩
    <;> omega

theorem sameParity_of_decomp {h : HurwitzInt} {p u1 u2 u3 u4 : ℤ}
    (h1 : h.dblR = 2 * u1 + p) (h2 : h.dblI = 2 * u2 + p)
    (h3 : h.dblJ = 2 * u3 + p) (h4 : h.dblK = 2 * u4 + p) : SameParity h := by
  refine ⟨?_, ?_, ?_⟩ <;> omega

theorem sameParity_add {a b : HurwitzInt} (ha : SameParity a) (hb : SameParity b) :
    SameParity (Add a b) := by
  obtain ⟨h1, h2, h3⟩ := ha
  obtain ⟨g1, g2, g3⟩ := hb
  refine ⟨?_, ?_, ?_⟩ <;> simp only [Add] <;> omega

theorem sameParity_sub {a b : HurwitzInt} (ha : SameParity a) (hb : SameParity b) :
    SameParity (Sub a b) := by
  obtain ⟨h1, h2, h3⟩ := ha
  obtain ⟨g1, g2, g3⟩ := hb
  refine ⟨?_, ?_, ?_⟩ <;> simp only [Sub] <;> omega

end HurwitzInt
end BigComplex

namespace BigComplex
namespace HurwitzInt

/-- with both operands decomposed by parity, every pre-shift Hamilton
component is even, so the final right-shift of Prod is exact. -/
theorem prodPre_even {a b : HurwitzInt} (ha : SameParity a) (hb : SameParity b) :
    2 ∣ prodPreR a b ∧ 2 ∣ prodPreI a b ∧ 2 ∣ prodPreJ a b ∧ 2 ∣ prodPreK a b := by
  obtain ⟨p, a1, a2, a3, a4, hp, ha1, ha2, ha3, ha4⟩ := sameParity_decomp ha
  obtain ⟨q, b1, b2, b3, b4, hq, hb1, hb2, hb3, hb4⟩ := sameParity_decomp hb
  refine ⟨⟨2 * (a1 * b1 - a2 * b2 - a3 * b3 - a4 * b4)
      + q * (a1 - a2 - a3 - a4) + p * (b1 - b2 - b3 - b4) - p * q, ?_⟩,
    ⟨2 * (a1 * b2 + a2 * b1 + a3 * b4 - a4 * b3)
      + q * (a1 + a2 + a3 - a4) + p * (b1 + b2 - b3 + b4) + p * q, ?_⟩,
    ⟨2 * (a1 * b3 - a2 * b4 + a3 * b1 + a4 * b2)
      + q * (a1 - a2 + a3 + a4) + p * (b1 + b2 + b3 - b4) + p * q, ?_⟩,
    ⟨2 * (a1 * b4 + a2 * b3 - a3 * b2 + a4 * b1)
      + q * (a1 + a2 - a3 + a4) + p * (b1 - b2 + b3 + b4) + p * q, ?_⟩⟩ <;>
  · first
    | (unfold prodPreR; rw [ha1, ha2, ha3, ha4, hb1, hb2, hb3, hb4]; ring)
    | (unfold prodPreI; rw [ha1, ha2, ha3, ha4, hb1, hb2, hb3, hb4]; ring)
    | (unfold prodPreJ; rw [ha1, ha2, ha3, ha4, hb1, hb2, hb3, hb4]; ring)
    | (unfold prodPreK; rw [ha1, ha2, ha3, ha4, hb1, hb2, hb3, hb4]; ring)

end HurwitzInt
end BigComplex

namespace BigComplex
namespace HurwitzInt

/-- the closed form of Prod under parity decompositions of both operands:
every right-shift is exact and the components are explicit polynomials in
the halves and parity bits. -/
theorem prod_decomp (a b : HurwitzInt) (p q a1 a2 a3 a4 b1 b2 b3 b4 : ℤ)
    (ha1 : a.dblR = 2 * a1 + p) (ha2 : a.dblI = 2 * a2 + p)
    (ha3 : a.dblJ = 2 * a3 + p) (ha4 : a.dblK = 2 * a4 + p)
    (hb1 : b.dblR = 2 * b1 + q) (hb2 : b.dblI = 2 * b2 + q)
    (hb3 : b.dblJ = 2 * b3 + q) (hb4 : b.dblK = 2 * b4 + q) :
    Prod a b =
      ⟨2 * (a1 * b1 - a2 * b2 - a3 * b3 - a4 * b4)
          + q * (a1 - a2 - a3 - a4) + p * (b1 - b2 - b3 - b4) - p * q,
        2 * (a1 * b2 + a2 * b1 + a3 * b4 - a4 * b3)
          + q * (a1 + a2 + a3 - a4) + p * (b1 + b2 - b3 + b4) + p * q,
        2 * (a1 * b3 - a2 * b4 + a3 * b1 + a4 * b2)
          + q * (a1 - a2 + a3 + a4) + p * (b1 + b2 + b3 - b4) + p * q,
        2 * (a1 * b4 + a2 * b3 - a3 * b2 + a4 * b1)
          + q * (a1 + a2 - a3 + a4) + p * (b1 - b2 + b3 + b4) + p * q⟩ := by
  unfold Prod
  rw [mk.injEq]
  refine ⟨?_, ?_, ?_, ?_⟩
  · rw [show prodPreR a b = 2 * (2 * (a1 * b1 - a2 * b2 - a3 * b3 - a4 * b4)
      + q * (a1 - a2 - a3 - a4) + p * (b1 - b2 - b3 - b4) - p * q) by
        unfold prodPreR; rw [ha1, ha2, ha3, ha4, hb1, hb2, hb3, hb4]; ring]
    exact Int.mul_fdiv_cancel_left _ two_ne_zero
  · rw [show prodPreI a b = 2 * (2 * (a1 * b2 + a2 * b1 + a3 * b4 - a4 * b3)
      + q * (a1 + a2 + a3 - a4) + p * (b1 + b2 - b3 + b4) + p * q) by
        unfold prodPreI; rw [ha1, ha2, ha3, ha4, hb1, hb2, hb3, hb4]; ring]
    exact Int.mul_fdiv_cancel_left _ two_ne_zero
  · rw [show prodPreJ a b = 2 * (2 * (a1 * b3 - a2 * b4 + a3 * b1 + a4 * b2)
      + q * (a1 - a2 + a3 + a4) + p * (b1 + b2 + b3 - b4) + p * q) by
        unfold prodPreJ; rw [ha1, ha2, ha3, ha4, hb1, hb2, hb3, hb4]; ring]
    exact Int.mul_fdiv_cancel_left _ two_ne_zero
  · rw [show prodPreK a b = 2 * (2 * (a1 * b4 + a2 * b3 - a3 * b2 + a4 * b1)
      + q * (a1 + a2 - a3 + a4) + p * (b1 - b2 + b3 + b4) + p * q) by
        unfold prodPreK; rw [ha1, ha2, ha3, ha4, hb1, hb2, hb3, hb4]; ring]
    exact Int.mul_fdiv_cancel_left _ two_ne_zero

/-- the Hamilton product of two parity-valid Hurwitz integers is again
parity-valid. -/
theorem sameParity_prod {a b : HurwitzInt} (ha : SameParity a) (hb : SameParity b) :
    SameParity (Prod a b) := by
  obtain ⟨p, a1, a2, a3, a4, hp, ha1, ha2, ha3, ha4⟩ := sameParity_decomp ha
  obtain ⟨q, b1, b2, b3, b4, hq, hb1, hb2, hb3, hb4⟩ := sameParity_decomp hb
  rw [prod_decomp a b p q a1 a2 a3 a4 b1 b2 b3 b4 ha1 ha2 ha3 ha4 hb1 hb2 hb3 hb4]
  refine ⟨?_, ?_, ?_⟩
  · exact emod_two_eq_of_dvd_sub ⟨(a1 * b1 - a2 * b2 - a3 * b3 - a4 * b4)
      - (a1 * b2 + a2 * b1 + a3 * b4 - a4 * b3)
      - q * (a2 + a3) - p * (b2 + b4) - p * q, by ring⟩
  · exact emod_two_eq_of_dvd_sub ⟨(a1 * b1 - a2 * b2 - a3 * b3 - a4 * b4)
      - (a1 * b3 - a2 * b4 + a3 * b1 + a4 * b2)
      - q * (a3 + a4) - p * (b2 + b3) - p * q, by ring⟩
  · exact emod_two_eq_of_dvd_sub ⟨(a1 * b1 - a2 * b2 - a3 * b3 - a4 * b4)
      - (a1 * b4 + a2 * b3 - a3 * b2 + a4 * b1)
      - q * (a2 + a4) - p * (b3 + b4) - p * q, by ring⟩

end HurwitzInt
end BigComplex

namespace BigComplex
namespace HurwitzInt

/-- the norm under a parity decomposition: the two-bit right-shift is exact
and the value has a closed polynomial form. -/
theorem norm_decomp (h : HurwitzInt) (p u1 u2 u3 u4 : ℤ)
    (h1 : h.dblR = 2 * u1 + p) (h2 : h.dblI = 2 * u2 + p)
    (h3 : h.dblJ = 2 * u3 + p) (h4 : h.dblK = 2 * u4 + p) :
    Norm h = (u1 * u1 + u2 * u2 + u3 * u3 + u4 * u4)
      + p * (u1 + u2 + u3 + u4) + p * p := by
  unfold Norm
  rw [show h.dblR * h.dblR + h.dblI * h.dblI + h.dblJ * h.dblJ + h.dblK * h.dblK
    = 4 * ((u1 * u1 + u2 * u2 + u3 * u3 + u4 * u4)
      + p * (u1 + u2 + u3 + u4) + p * p) by rw [h1, h2, h3, h4]; ring]
  exact Int.mul_fdiv_cancel_left _ (by norm_num)

theorem norm_nonneg_h (h : HurwitzInt) : 0 ≤ Norm h := by
  unfold Norm
  apply Int.fdiv_nonneg _ (by norm_num)
  nlinarith [mul_self_nonneg h.dblR, mul_self_nonneg h.dblI,
    mul_self_nonneg h.dblJ, mul_self_nonneg h.dblK]

theorem norm_pos_h {b : HurwitzInt} (hs : SameParity b) (hb : b ≠ ⟨0, 0, 0, 0⟩) :
    0 < Norm b := by
  obtain ⟨p, u1, u2, u3, u4, hp, h1, h2, h3, h4⟩ := sameParity_decomp hs
  rw [norm_decomp b p u1 u2 u3 u4 h1 h2 h3 h4]
  have hkey : ∀ u : ℤ, 0 ≤ u * u + u := by
    intro u
    rcases le_or_lt 0 u with h | h
    · nlinarith
    · nlinarith
  rcases hp with hp0 | hp1
  · subst hp0
    have hne : u1 ≠ 0 ∨ u2 ≠ 0 ∨ u3 ≠ 0 ∨ u4 ≠ 0 := by
      by_contra hc
      push_neg at hc
      obtain ⟨e1, e2, e3, e4⟩ := hc
      apply hb
      obtain ⟨x, y, z, w⟩ := b
      simp only [mk.injEq]
      simp only at h1 h2 h3 h4
      omega
    rcases hne with h | h | h | h
    · have := mul_self_pos.mpr h
      nlinarith [mul_self_nonneg u2, mul_self_nonneg u3, mul_self_nonneg u4]
    · have := mul_self_pos.mpr h
      nlinarith [mul_self_nonneg u1, mul_self_nonneg u3, mul_self_nonneg u4]
    · have := mul_self_pos.mpr h
      nlinarith [mul_self_nonneg u1, mul_self_nonneg u2, mul_self_nonneg u4]
    · have := mul_self_pos.mpr h
      nlinarith [mul_self_nonneg u1, mul_self_nonneg u2, mul_self_nonneg u3]
  · subst hp1
    have k1 := hkey u1
    have k2 := hkey u2
    have k3 := hkey u3
    have k4 := hkey u4
    nlinarith

theorem norm_eq_zero_h {b : HurwitzInt} (hs : SameParity b) (h : Norm b = 0) :
    b = ⟨0, 0, 0, 0⟩ := by
  by_contra hb
  have := norm_pos_h hs hb
  omega

end HurwitzInt
end BigComplex

namespace BigComplex
namespace HurwitzInt

/-- the product of a parity-valid Hurwitz integer with its conjugate is the
purely real value whose doubled real part is twice the norm. -/
theorem prod_conj_self_h {h : HurwitzInt} (hs : SameParity h) :
    Prod h (Conj h) = ⟨2 * Norm h, 0, 0, 0⟩ := by
  obtain ⟨p, u1, u2, u3, u4, hp, h1, h2, h3, h4⟩ := sameParity_decomp hs
  have hc1 : (Conj h).dblR = 2 * u1 + p := h1
  have hc2 : (Conj h).dblI = 2 * (-u2 - p) + p := by show -h.dblI = _; rw [h2]; ring
  have hc3 : (Conj h).dblJ = 2 * (-u3 - p) + p := by show -h.dblJ = _; rw [h3]; ring
  have hc4 : (Conj h).dblK = 2 * (-u4 - p) + p := by show -h.dblK = _; rw [h4]; ring
  rw [prod_decomp h (Conj h) p p u1 u2 u3 u4 u1 (-u2 - p) (-u3 - p) (-u4 - p)
    h1 h2 h3 h4 hc1 hc2 hc3 hc4,
    norm_decomp h p u1 u2 u3 u4 h1 h2 h3 h4]
  rw [mk.injEq]
  refine ⟨by ring, by ring, by ring, by ring⟩

/-- multiplicativity of the Hurwitz norm on parity-valid operands. -/
theorem norm_mult_h {a b : HurwitzInt} (ha : SameParity a) (hb : SameParity b) :
    Norm (Prod a b) = Norm a * Norm b := by
  obtain ⟨p, a1, a2, a3, a4, hp, ha1, ha2, ha3, ha4⟩ := sameParity_decomp ha
  obtain ⟨q, b1, b2, b3, b4, hq, hb1, hb2, hb3, hb4⟩ := sameParity_decomp hb
  rw [prod_decomp a b p q a1 a2 a3 a4 b1 b2 b3 b4 ha1 ha2 ha3 ha4 hb1 hb2 hb3 hb4,
    norm_decomp a p a1 a2 a3 a4 ha1 ha2 ha3 ha4,
    norm_decomp b q b1 b2 b3 b4 hb1 hb2 hb3 hb4]
  unfold Norm
  dsimp only
  rw [show (2 * (a1 * b1 - a2 * b2 - a3 * b3 - a4 * b4)
          + q * (a1 - a2 - a3 - a4) + p * (b1 - b2 - b3 - b4) - p * q)
        * (2 * (a1 * b1 - a2 * b2 - a3 * b3 - a4 * b4)
          + q * (a1 - a2 - a3 - a4) + p * (b1 - b2 - b3 - b4) - p * q)
      + (2 * (a1 * b2 + a2 * b1 + a3 * b4 - a4 * b3)
          + q * (a1 + a2 + a3 - a4) + p * (b1 + b2 - b3 + b4) + p * q)
        * (2 * (a1 * b2 + a2 * b1 + a3 * b4 - a4 * b3)
          + q * (a1 + a2 + a3 - a4) + p * (b1 + b2 - b3 + b4) + p * q)
      + (2 * (a1 * b3 - a2 * b4 + a3 * b1 + a4 * b2)
          + q * (a1 - a2 + a3 + a4) + p * (b1 + b2 + b3 - b4) + p * q)
        * (2 * (a1 * b3 - a2 * b4 + a3 * b1 + a4 * b2)
          + q * (a1 - a2 + a3 + a4) + p * (b1 + b2 + b3 - b4) + p * q)
      + (2 * (a1 * b4 + a2 * b3 - a3 * b2 + a4 * b1)
          + q * (a1 + a2 - a3 + a4) + p * (b1 - b2 + b3 + b4) + p * q)
        * (2 * (a1 * b4 + a2 * b3 - a3 * b2 + a4 * b1)
          + q * (a1 + a2 - a3 + a4) + p * (b1 - b2 + b3 + b4) + p * q)
      = 4 * (((a1 * a1 + a2 * a2 + a3 * a3 + a4 * a4) + p * (a1 + a2 + a3 + a4) + p * p)
        * ((b1 * b1 + b2 * b2 + b3 * b3 + b4 * b4) + q * (b1 + b2 + b3 + b4) + q * q))
      by ring]
  exact Int.mul_fdiv_cancel_left _ (by norm_num)

end HurwitzInt
end BigComplex
namespace BigComplex
namespace HurwitzInt

/-- the product of an integer quaternion (even doubles) with any Hurwitz
value: every right-shift is exact and the doubled components are the
Hamilton product of the halves with the doubled components. -/
theorem prod_even_left (u1 u2 u3 u4 : ℤ) (g : HurwitzInt) :
    Prod ⟨2 * u1, 2 * u2, 2 * u3, 2 * u4⟩ g =
      ⟨u1 * g.dblR - u2 * g.dblI - u3 * g.dblJ - u4 * g.dblK,
        u1 * g.dblI + u2 * g.dblR + u3 * g.dblK - u4 * g.dblJ,
        u1 * g.dblJ - u2 * g.dblK + u3 * g.dblR + u4 * g.dblI,
        u1 * g.dblK + u2 * g.dblJ - u3 * g.dblI + u4 * g.dblR⟩ := by
  unfold Prod
  rw [mk.injEq]
  refine ⟨?_, ?_, ?_, ?_⟩
  · rw [show prodPreR ⟨2 * u1, 2 * u2, 2 * u3, 2 * u4⟩ g
      = 2 * (u1 * g.dblR - u2 * g.dblI - u3 * g.dblJ - u4 * g.dblK) by
        unfold prodPreR; dsimp only; ring]
    exact Int.mul_fdiv_cancel_left _ two_ne_zero
  · rw [show prodPreI ⟨2 * u1, 2 * u2, 2 * u3, 2 * u4⟩ g
      = 2 * (u1 * g.dblI + u2 * g.dblR + u3 * g.dblK - u4 * g.dblJ) by
        unfold prodPreI; dsimp only; ring]
    exact Int.mul_fdiv_cancel_left _ two_ne_zero
  · rw [show prodPreJ ⟨2 * u1, 2 * u2, 2 * u3, 2 * u4⟩ g
      = 2 * (u1 * g.dblJ - u2 * g.dblK + u3 * g.dblR + u4 * g.dblI) by
        unfold prodPreJ; dsimp only; ring]
    exact Int.mul_fdiv_cancel_left _ two_ne_zero
  · rw [show prodPreK ⟨2 * u1, 2 * u2, 2 * u3, 2 * u4⟩ g
      = 2 * (u1 * g.dblK + u2 * g.dblJ - u3 * g.dblI + u4 * g.dblR) by
        unfold prodPreK; dsimp only; ring]
    exact Int.mul_fdiv_cancel_left _ two_ne_zero

theorem dblEven_quot (a b : HurwitzInt) : DblEven (quot a b) :=
  ⟨_, _, _, _, rfl⟩

theorem dblEven_sameParity {m : HurwitzInt} (hm : DblEven m) : SameParity m := by
  obtain ⟨u1, u2, u3, u4, rfl⟩ := hm
  refine ⟨?_, ?_, ?_⟩ <;> dsimp only <;> omega

theorem dblEven_add {x y : HurwitzInt} (hx : DblEven x) (hy : DblEven y) :
    DblEven (Add x y) := by
  obtain ⟨u1, u2, u3, u4, rfl⟩ := hx
  obtain ⟨v1, v2, v3, v4, rfl⟩ := hy
  exact ⟨u1 + v1, u2 + v2, u3 + v3, u4 + v4, by simp only [Add, mk.injEq]; omega⟩

theorem dblEven_prod {x y : HurwitzInt} (hx : DblEven x) (hy : DblEven y) :
    DblEven (Prod x y) := by
  obtain ⟨u1, u2, u3, u4, rfl⟩ := hx
  obtain ⟨v1, v2, v3, v4, rfl⟩ := hy
  rw [prod_even_left]
  dsimp only
  exact ⟨u1 * v1 - u2 * v2 - u3 * v3 - u4 * v4,
    u1 * v2 + u2 * v1 + u3 * v4 - u4 * v3,
    u1 * v3 - u2 * v4 + u3 * v1 + u4 * v2,
    u1 * v4 + u2 * v3 - u3 * v2 + u4 * v1, by rw [mk.injEq]; refine ⟨by ring, by ring, by ring, by ring⟩⟩

/-- associativity of the embedded product when the two left factors are
integer quaternions. -/
theorem prod_assoc_even {x y : HurwitzInt} (g : HurwitzInt)
    (hx : DblEven x) (hy : DblEven y) :
    Prod x (Prod y g) = Prod (Prod x y) g := by
  obtain ⟨u1, u2, u3, u4, rfl⟩ := hx
  obtain ⟨v1, v2, v3, v4, rfl⟩ := hy
  rw [prod_even_left v1 v2 v3 v4 g, prod_even_left u1 u2 u3 u4]
  rw [show Prod ⟨2 * u1, 2 * u2, 2 * u3, 2 * u4⟩ ⟨2 * v1, 2 * v2, 2 * v3, 2 * v4⟩
    = ⟨2 * (u1 * v1 - u2 * v2 - u3 * v3 - u4 * v4),
        2 * (u1 * v2 + u2 * v1 + u3 * v4 - u4 * v3),
        2 * (u1 * v3 - u2 * v4 + u3 * v1 + u4 * v2),
        2 * (u1 * v4 + u2 * v3 - u3 * v2 + u4 * v1)⟩ by
      rw [prod_even_left]; dsimp only; rw [mk.injEq]
      refine ⟨by ring, by ring, by ring, by ring⟩]
  rw [prod_even_left]
  dsimp only
  rw [mk.injEq]
  refine ⟨by ring, by ring, by ring, by ring⟩

/-- left distributivity over Add when the first summand is an integer
quaternion, so that the shift splits exactly. -/
theorem prod_add_even_left {x : HurwitzInt} (y g : HurwitzInt) (hx : DblEven x) :
    Prod (Add x y) g = Add (Prod x g) (Prod y g) := by
  obtain ⟨u1, u2, u3, u4, rfl⟩ := hx
  unfold Prod Add
  dsimp only
  rw [mk.injEq]
  refine ⟨?_, ?_, ?_, ?_⟩
  · rw [show prodPreR ⟨2 * u1 + y.dblR, 2 * u2 + y.dblI, 2 * u3 + y.dblJ, 2 * u4 + y.dblK⟩ g
      = 2 * (u1 * g.dblR - u2 * g.dblI - u3 * g.dblJ - u4 * g.dblK) + prodPreR y g by
        unfold prodPreR; dsimp only; ring,
      fdiv_two_add,
      show prodPreR ⟨2 * u1, 2 * u2, 2 * u3, 2 * u4⟩ g
      = 2 * (u1 * g.dblR - u2 * g.dblI - u3 * g.dblJ - u4 * g.dblK) by
        unfold prodPreR; dsimp only; ring,
      Int.mul_fdiv_cancel_left _ two_ne_zero]
  · rw [show prodPreI ⟨2 * u1 + y.dblR, 2 * u2 + y.dblI, 2 * u3 + y.dblJ, 2 * u4 + y.dblK⟩ g
      = 2 * (u1 * g.dblI + u2 * g.dblR + u3 * g.dblK - u4 * g.dblJ) + prodPreI y g by
        unfold prodPreI; dsimp only; ring,
      fdiv_two_add,
      show prodPreI ⟨2 * u1, 2 * u2, 2 * u3, 2 * u4⟩ g
      = 2 * (u1 * g.dblI + u2 * g.dblR + u3 * g.dblK - u4 * g.dblJ) by
        unfold prodPreI; dsimp only; ring,
      Int.mul_fdiv_cancel_left _ two_ne_zero]
  · rw [show prodPreJ ⟨2 * u1 + y.dblR, 2 * u2 + y.dblI, 2 * u3 + y.dblJ, 2 * u4 + y.dblK⟩ g
      = 2 * (u1 * g.dblJ - u2 * g.dblK + u3 * g.dblR + u4 * g.dblI) + prodPreJ y g by
        unfold prodPreJ; dsimp only; ring,
      fdiv_two_add,
      show prodPreJ ⟨2 * u1, 2 * u2, 2 * u3, 2 * u4⟩ g
      = 2 * (u1 * g.dblJ - u2 * g.dblK + u3 * g.dblR + u4 * g.dblI) by
        unfold prodPreJ; dsimp only; ring,
      Int.mul_fdiv_cancel_left _ two_ne_zero]
  · rw [show prodPreK ⟨2 * u1 + y.dblR, 2 * u2 + y.dblI, 2 * u3 + y.dblJ, 2 * u4 + y.dblK⟩ g
      = 2 * (u1 * g.dblK + u2 * g.dblJ - u3 * g.dblI + u4 * g.dblR) + prodPreK y g by
        unfold prodPreK; dsimp only; ring,
      fdiv_two_add,
      show prodPreK ⟨2 * u1, 2 * u2, 2 * u3, 2 * u4⟩ g
      = 2 * (u1 * g.dblK + u2 * g.dblJ - u3 * g.dblI + u4 * g.dblR) by
        unfold prodPreK; dsimp only; ring,
      Int.mul_fdiv_cancel_left _ two_ne_zero]

theorem prod_one_left' (g : HurwitzInt) : Prod ⟨2, 0, 0, 0⟩ g = g := by
  have h := prod_even_left 1 0 0 0 g
  norm_num at h
  rw [h]

end HurwitzInt
end BigComplex

namespace BigComplex
namespace HurwitzInt

/-- division of an exact right-multiple m * d by a nonzero parity-valid d
recovers the integer-quaternion factor m with zero remainder: the true
scalar quotient components are the integer halves of m, on which roundFloat
is exact. -/
theorem div_exact_h (d m : HurwitzInt) (hd : SameParity d) (hd0 : d ≠ ⟨0, 0, 0, 0⟩)
    (hm : DblEven m) : Div (Prod m d) d = some (m, ⟨0, 0, 0, 0⟩) := by
  obtain ⟨u1, u2, u3, u4, rfl⟩ := hm
  obtain ⟨s, w1, w2, w3, w4, hs01, hw1, hw2, hw3, hw4⟩ := sameParity_decomp hd
  set Nd : ℤ := (w1 * w1 + w2 * w2 + w3 * w3 + w4 * w4)
    + s * (w1 + w2 + w3 + w4) + s * s with hNd
  have hnormd : Norm d = Nd := norm_decomp d s w1 w2 w3 w4 hw1 hw2 hw3 hw4
  have hNpos : 0 < Nd := by rw [← hnormd]; exact norm_pos_h hd hd0
  have hdenR : (Prod d (Conj d)).dblR = 2 * Nd := by
    rw [prod_conj_self_h hd, hnormd]
  have hx := prod_even_left u1 u2 u3 u4 d
  have hnumR : (Prod (Prod ⟨2 * u1, 2 * u2, 2 * u3, 2 * u4⟩ d) (Conj d)).dblR
      = 2 * u1 * Nd := by
    rw [hx]
    show (prodPreR _ _).fdiv 2 = _
    rw [show prodPreR ⟨u1 * d.dblR - u2 * d.dblI - u3 * d.dblJ - u4 * d.dblK,
        u1 * d.dblI + u2 * d.dblR + u3 * d.dblK - u4 * d.dblJ,
        u1 * d.dblJ - u2 * d.dblK + u3 * d.dblR + u4 * d.dblI,
        u1 * d.dblK + u2 * d.dblJ - u3 * d.dblI + u4 * d.dblR⟩ (Conj d)
      = 2 * (2 * u1 * Nd) by
        unfold prodPreR Conj; dsimp only; rw [hw1, hw2, hw3, hw4, hNd]; ring]
    exact Int.mul_fdiv_cancel_left _ two_ne_zero
  have hnumI : (Prod (Prod ⟨2 * u1, 2 * u2, 2 * u3, 2 * u4⟩ d) (Conj d)).dblI
      = 2 * u2 * Nd := by
    rw [hx]
    show (prodPreI _ _).fdiv 2 = _
    rw [show prodPreI ⟨u1 * d.dblR - u2 * d.dblI - u3 * d.dblJ - u4 * d.dblK,
        u1 * d.dblI + u2 * d.dblR + u3 * d.dblK - u4 * d.dblJ,
        u1 * d.dblJ - u2 * d.dblK + u3 * d.dblR + u4 * d.dblI,
        u1 * d.dblK + u2 * d.dblJ - u3 * d.dblI + u4 * d.dblR⟩ (Conj d)
      = 2 * (2 * u2 * Nd) by
        unfold prodPreI Conj; dsimp only; rw [hw1, hw2, hw3, hw4, hNd]; ring]
    exact Int.mul_fdiv_cancel_left _ two_ne_zero
  have hnumJ : (Prod (Prod ⟨2 * u1, 2 * u2, 2 * u3, 2 * u4⟩ d) (Conj d)).dblJ
      = 2 * u3 * Nd := by
    rw [hx]
    show (prodPreJ _ _).fdiv 2 = _
    rw [show prodPreJ ⟨u1 * d.dblR - u2 * d.dblI - u3 * d.dblJ - u4 * d.dblK,
        u1 * d.dblI + u2 * d.dblR + u3 * d.dblK - u4 * d.dblJ,
        u1 * d.dblJ - u2 * d.dblK + u3 * d.dblR + u4 * d.dblI,
        u1 * d.dblK + u2 * d.dblJ - u3 * d.dblI + u4 * d.dblR⟩ (Conj d)
      = 2 * (2 * u3 * Nd) by
        unfold prodPreJ Conj; dsimp only; rw [hw1, hw2, hw3, hw4, hNd]; ring]
    exact Int.mul_fdiv_cancel_left _ two_ne_zero
  have hnumK : (Prod (Prod ⟨2 * u1, 2 * u2, 2 * u3, 2 * u4⟩ d) (Conj d)).dblK
      = 2 * u4 * Nd := by
    rw [hx]
    show (prodPreK _ _).fdiv 2 = _
    rw [show prodPreK ⟨u1 * d.dblR - u2 * d.dblI - u3 * d.dblJ - u4 * d.dblK,
        u1 * d.dblI + u2 * d.dblR + u3 * d.dblK - u4 * d.dblJ,
        u1 * d.dblJ - u2 * d.dblK + u3 * d.dblR + u4 * d.dblI,
        u1 * d.dblK + u2 * d.dblJ - u3 * d.dblI + u4 * d.dblR⟩ (Conj d)
      = 2 * (2 * u4 * Nd) by
        unfold prodPreK Conj; dsimp only; rw [hw1, hw2, hw3, hw4, hNd]; ring]
    exact Int.mul_fdiv_cancel_left _ two_ne_zero
  have hratio : ∀ u : ℤ, ((2 * u * Nd : ℤ) : ℚ) / ((2 * Nd : ℤ) : ℚ) = (u : ℚ) := by
    intro u
    have hq0 : ((2 * Nd : ℤ) : ℚ) ≠ 0 := by
      have : (2 * Nd : ℤ) ≠ 0 := by omega
      exact_mod_cast this
    rw [div_eq_iff hq0]
    push_cast
    ring
  have hquot : quot (Prod ⟨2 * u1, 2 * u2, 2 * u3, 2 * u4⟩ d) d
      = ⟨2 * u1, 2 * u2, 2 * u3, 2 * u4⟩ := by
    unfold quot
    rw [hnumR, hnumI, hnumJ, hnumK, hdenR, hratio u1, hratio u2, hratio u3, hratio u4,
      roundFloat_int u1, roundFloat_int u2, roundFloat_int u3, roundFloat_int u4]
  unfold Div
  rw [hdenR, if_neg (by omega : ¬ (2 * Nd = 0)), hquot]
  rw [(sub_eq_zero_iff_h _ _).mpr rfl]

end HurwitzInt
end BigComplex

namespace BigComplex
namespace HurwitzInt

theorem div_some_eq_h {a b : HurwitzInt} {q r : HurwitzInt}
    (h : Div a b = some (q, r)) : q = quot a b ∧ r = Sub a (Prod (quot a b) b) := by
  unfold Div at h
  split at h
  · exact absurd h (by simp)
  · have h2 := Option.some.inj h
    exact ⟨(Prod.mk.inj h2).1.symm, (Prod.mk.inj h2).2.symm⟩

theorem div_some_nonzero_h {a b : HurwitzInt} {p : HurwitzInt × HurwitzInt}
    (h : Div a b = some p) : b ≠ ⟨0, 0, 0, 0⟩ := by
  intro hb
  subst hb
  unfold Div at h
  rw [if_pos (by decide : (Prod (⟨0, 0, 0, 0⟩ : HurwitzInt)
    (Conj ⟨0, 0, 0, 0⟩)).dblR = 0)] at h
  exact absurd h (by simp)

theorem div_eq_some_h (a b : HurwitzInt) (hs : SameParity b) (hb : b ≠ ⟨0, 0, 0, 0⟩) :
    Div a b = some (quot a b, Sub a (Prod (quot a b) b)) := by
  have hden : (Prod b (Conj b)).dblR = 2 * Norm b := by rw [prod_conj_self_h hs]
  have hpos := norm_pos_h hs hb
  unfold Div
  rw [if_neg (by omega : ¬ ((Prod b (Conj b)).dblR = 0))]

theorem div_zero_rem_factor_h {x d m : HurwitzInt}
    (h : Div x d = some (m, ⟨0, 0, 0, 0⟩)) : x = Prod m d := by
  obtain ⟨hq, hr⟩ := div_some_eq_h h
  rw [← hq] at hr
  exact (sub_eq_zero_iff_h x (Prod m d)).mp hr.symm

theorem dblEven_of_div_some {a b q r : HurwitzInt}
    (h : Div a b = some (q, r)) : DblEven q := by
  rw [(div_some_eq_h h).1]
  exact dblEven_quot a b

/-- the remainder stays parity-valid along the Euclidean loop. -/
theorem sameParity_rem {a b q r : HurwitzInt} (ha : SameParity a) (hb : SameParity b)
    (h : Div a b = some (q, r)) : SameParity r := by
  obtain ⟨hq, hr⟩ := div_some_eq_h h
  rw [hr]
  exact sameParity_sub ha (sameParity_prod (dblEven_sameParity (dblEven_quot a b)) hb)

/-- whatever the right-division Euclidean loop returns right-divides both
working values with zero Div remainder. -/
theorem gcrdLoop_divides : ∀ (fuel : ℕ) (ac bc g : HurwitzInt),
    SameParity ac → SameParity bc → gcrdLoop fuel ac bc = some g →
    SameParity g ∧ g ≠ ⟨0, 0, 0, 0⟩ ∧
      (∃ m, Div ac g = some (m, ⟨0, 0, 0, 0⟩)) ∧
      (∃ m, Div bc g = some (m, ⟨0, 0, 0, 0⟩)) := by
  intro fuel
  induction fuel with
  | zero => intro ac bc g hpa hpb h; simp [gcrdLoop] at h
  | succ n ih =>
    intro ac bc g hpa hpb h
    rw [gcrdLoop] at h
    cases hdiv : Div ac bc with
    | none => rw [hdiv] at h; simp at h
    | some p =>
      obtain ⟨q, r⟩ := p
      rw [hdiv] at h
      simp only at h
      have hbc : bc ≠ ⟨0, 0, 0, 0⟩ := div_some_nonzero_h hdiv
      by_cases hz : IsZero r
      · rw [if_pos hz] at h
        have hg : g = bc := (Option.some.inj h).symm
        subst hg
        have hr0 : r = ⟨0, 0, 0, 0⟩ := (isZero_iff_h r).mp hz
        refine ⟨hpb, hbc, ⟨q, ?_⟩, ⟨⟨2, 0, 0, 0⟩, ?_⟩⟩
        · rw [hdiv, hr0]
        · have hde := div_exact_h g ⟨2, 0, 0, 0⟩ hpb hbc ⟨1, 0, 0, 0, by norm_num⟩
          rw [prod_one_left'] at hde
          exact hde
      · rw [if_neg hz] at h
        have hpr : SameParity r := sameParity_rem hpa hpb hdiv
        obtain ⟨hpg, hg0, ⟨m1, hm1⟩, ⟨m2, hm2⟩⟩ := ih bc r g hpb hpr h
        refine ⟨hpg, hg0, ?_, ⟨m1, hm1⟩⟩
        obtain ⟨hq, hr⟩ := div_some_eq_h hdiv
        have hqe : DblEven q := by rw [hq]; exact dblEven_quot ac bc
        have hm1e : DblEven m1 := dblEven_of_div_some hm1
        have hm2e : DblEven m2 := dblEven_of_div_some hm2
        have hac : ac = Add (Prod q bc) r := by
          rw [hr, hq]
          exact (add_prod_sub_h ac _).symm
        have hbc_eq : bc = Prod m1 g := div_zero_rem_factor_h hm1
        have hr_eq : r = Prod m2 g := div_zero_rem_factor_h hm2
        have hfact : ac = Prod (Add (Prod q m1) m2) g := by
          rw [hac, hbc_eq, hr_eq, prod_assoc_even g hqe hm1e,
            prod_add_even_left m2 g (dblEven_prod hqe hm1e)]
        rw [hfact]
        exact ⟨_, div_exact_h g (Add (Prod q m1) m2) hpg hg0
          (dblEven_add (dblEven_prod hqe hm1e) hm2e)⟩

theorem gcrd_divides (fuel : ℕ) (a b g : HurwitzInt)
    (hpa : SameParity a) (hpb : SameParity b) (h : GCRD fuel a b = some g) :
    SameParity g ∧ g ≠ ⟨0, 0, 0, 0⟩ ∧
      (∃ m, Div a g = some (m, ⟨0, 0, 0, 0⟩)) ∧
      (∃ m, Div b g = some (m, ⟨0, 0, 0, 0⟩)) := by
  unfold GCRD at h
  by_cases hc : CmpNorm a b < 0
  · rw [if_pos hc] at h
    obtain ⟨h1, h2, h3, h4⟩ := gcrdLoop_divides fuel b a g hpb hpa h
    exact ⟨h1, h2, h4, h3⟩
  · rw [if_neg hc] at h
    exact gcrdLoop_divides fuel a b g hpa hpb h

end HurwitzInt
end BigComplex
namespace BigComplex

namespace GaussianInt

/-- multiplicativity of the Gaussian norm, the Brahmagupta identity. -/
theorem norm_mult (a b : GaussianInt) : Norm (Prod a b) = Norm a * Norm b := by
  obtain ⟨p, q⟩ := a; obtain ⟨u, v⟩ := b
  simp only [Norm, Prod]
  ring

theorem conj_conj (g : GaussianInt) : Conj (Conj g) = g := by
  obtain ⟨x, y⟩ := g
  simp [Conj]

theorem prod_conj_self (g : GaussianInt) : Prod g (Conj g) = ⟨Norm g, 0⟩ := by
  obtain ⟨x, y⟩ := g
  simp only [Prod, Conj, Norm, mk.injEq]
  constructor <;> ring

end GaussianInt

namespace HurwitzInt

theorem conj_conj_h (h : HurwitzInt) : Conj (Conj h) = h := by
  obtain ⟨x, y, z, w⟩ := h
  simp [Conj]

theorem div_zero_right_h (a : HurwitzInt) : Div a ⟨0, 0, 0, 0⟩ = none := by
  unfold Div
  rw [if_pos (by decide : (Prod (⟨0, 0, 0, 0⟩ : HurwitzInt)
    (Conj ⟨0, 0, 0, 0⟩)).dblR = 0)]

/-- the amended Hurwitz division statement: a successful division is exact
in the sense a = q * b + r. -/
theorem div_spec_h (a b : HurwitzInt) (hs : SameParity b) (hb : b ≠ ⟨0, 0, 0, 0⟩) :
    ∃ q r, Div a b = some (q, r) ∧ a = Add (Prod q b) r :=
  ⟨quot a b, Sub a (Prod (quot a b) b), div_eq_some_h a b hs hb,
    (add_prod_sub_h a _).symm⟩

end HurwitzInt
end BigComplex
namespace BigComplex

/-- C1: for Gaussian integers the claim holds in full: for b not zero, Div
returns quotient q and remainder r with a = q * b + r exactly and
Norm r < Norm b. For Hurwitz integers only exactness holds in general; the
remainder bound fails at a = 1+i+j+k, b = 2 (see the counterexample), so
the Hurwitz conjunct stops at exactness as the counterexample forces. -/
theorem claim_C1 :
    (∀ a b : GaussianInt, b ≠ ⟨0, 0⟩ →
      ∃ q r, GaussianInt.Div a b = some (q, r) ∧
        a = GaussianInt.Add (GaussianInt.Prod q b) r ∧
        GaussianInt.Norm r < GaussianInt.Norm b) ∧
    (∀ a b : HurwitzInt, HurwitzInt.SameParity b → b ≠ ⟨0, 0, 0, 0⟩ →
      ∃ q r, HurwitzInt.Div a b = some (q, r) ∧
        a = HurwitzInt.Add (HurwitzInt.Prod q b) r) :=
  ⟨GaussianInt.div_spec, HurwitzInt.div_spec_h⟩

/-- C1 counterexample: dividing the Hurwitz integer 1+i+j+k (doubled
components 2,2,2,2) by 2 (doubled components 4,0,0,0) gives quotient 0 and
remainder 1+i+j+k itself, whose norm 4 is not below Norm(2) = 4. -/
theorem claim_C1_cex :
    HurwitzInt.Div ⟨2, 2, 2, 2⟩ ⟨4, 0, 0, 0⟩
      = some (⟨0, 0, 0, 0⟩, ⟨2, 2, 2, 2⟩) ∧
    ¬ (HurwitzInt.Norm ⟨2, 2, 2, 2⟩ < HurwitzInt.Norm ⟨4, 0, 0, 0⟩) := by
  constructor
  · with_unfolding_all decide
  · decide

/-- C1 witness at the spec scenario (7+3i)/(2-i) and a concrete Hurwitz
division. -/
theorem claim_C1_witness :
    (∃ q r, GaussianInt.Div ⟨7, 3⟩ ⟨2, -1⟩ = some (q, r) ∧
      (⟨7, 3⟩ : GaussianInt) = GaussianInt.Add (GaussianInt.Prod q ⟨2, -1⟩) r ∧
      GaussianInt.Norm r < GaussianInt.Norm ⟨2, -1⟩) ∧
    (∃ q r, HurwitzInt.Div ⟨2, 2, 2, 2⟩ ⟨4, 0, 0, 0⟩ = some (q, r) ∧
      (⟨2, 2, 2, 2⟩ : HurwitzInt)
        = HurwitzInt.Add (HurwitzInt.Prod q ⟨4, 0, 0, 0⟩) r) :=
  ⟨claim_C1.1 ⟨7, 3⟩ ⟨2, -1⟩ (by decide),
    claim_C1.2 ⟨2, 2, 2, 2⟩ ⟨4, 0, 0, 0⟩ (by decide) (by decide)⟩

/-- C2: roundFloat adds the bias 49/100 for non-negative inputs, subtracts
it for negative inputs, then truncates toward zero; an exact half n + 1/2
with n at least zero rounds down to n, and any value within 49/100 of an
integer rounds to that integer. -/
theorem claim_C2 :
    (∀ f : ℚ, roundFloat f
      = if f < 0 then truncQ (f - 49 / 100) else truncQ (f + 49 / 100)) ∧
    (∀ n : ℤ, 0 ≤ n → roundFloat ((n : ℚ) + 1 / 2) = n) ∧
    (∀ (f : ℚ) (m : ℤ), |f - (m : ℚ)| ≤ 49 / 100 → roundFloat f = m) :=
  ⟨fun _ => rfl, roundFloat_half_nonneg, roundFloat_close⟩

/-- C2 witness: 3.5 rounds to 3 and 0.7 rounds to 1. -/
theorem claim_C2_witness :
    roundFloat ((3 : ℤ) + 1 / 2) = 3 ∧ roundFloat (7 / 10) = 1 :=
  ⟨claim_C2.2.1 3 (by norm_num),
    claim_C2.2.2 (7 / 10) 1 (by rw [abs_le]; constructor <;> norm_num)⟩

/-- C3: Add, Sub and Prod preserve the shared-parity invariant of the
doubled components, and all four pre-shift Hamilton components in Prod are
even, so the final one-bit right-shift is exact. -/
theorem claim_C3 : ∀ a b : HurwitzInt,
    HurwitzInt.SameParity a → HurwitzInt.SameParity b →
    HurwitzInt.SameParity (HurwitzInt.Add a b) ∧
    HurwitzInt.SameParity (HurwitzInt.Sub a b) ∧
    HurwitzInt.SameParity (HurwitzInt.Prod a b) ∧
    2 ∣ HurwitzInt.prodPreR a b ∧ 2 ∣ HurwitzInt.prodPreI a b ∧
    2 ∣ HurwitzInt.prodPreJ a b ∧ 2 ∣ HurwitzInt.prodPreK a b :=
  fun _ _ ha hb =>
    ⟨HurwitzInt.sameParity_add ha hb, HurwitzInt.sameParity_sub ha hb,
      HurwitzInt.sameParity_prod ha hb, (HurwitzInt.prodPre_even ha hb).1,
      (HurwitzInt.prodPre_even ha hb).2.1, (HurwitzInt.prodPre_even ha hb).2.2.1,
      (HurwitzInt.prodPre_even ha hb).2.2.2⟩

/-- C3 witness at a half-integer and an integer quaternion. -/
theorem claim_C3_witness :
    HurwitzInt.SameParity (HurwitzInt.Add ⟨1, 1, 1, 1⟩ ⟨2, 2, 2, 2⟩) ∧
    HurwitzInt.SameParity (HurwitzInt.Sub ⟨1, 1, 1, 1⟩ ⟨2, 2, 2, 2⟩) ∧
    HurwitzInt.SameParity (HurwitzInt.Prod ⟨1, 1, 1, 1⟩ ⟨2, 2, 2, 2⟩) ∧
    2 ∣ HurwitzInt.prodPreR ⟨1, 1, 1, 1⟩ ⟨2, 2, 2, 2⟩ ∧
    2 ∣ HurwitzInt.prodPreI ⟨1, 1, 1, 1⟩ ⟨2, 2, 2, 2⟩ ∧
    2 ∣ HurwitzInt.prodPreJ ⟨1, 1, 1, 1⟩ ⟨2, 2, 2, 2⟩ ∧
    2 ∣ HurwitzInt.prodPreK ⟨1, 1, 1, 1⟩ ⟨2, 2, 2, 2⟩ :=
  claim_C3 ⟨1, 1, 1, 1⟩ ⟨2, 2, 2, 2⟩ (by decide) (by decide)

/-- C4: the norm is multiplicative over Prod for both types, with Hurwitz
operands satisfying the shared-parity invariant. -/
theorem claim_C4 :
    (∀ a b : GaussianInt,
      GaussianInt.Norm (GaussianInt.Prod a b)
        = GaussianInt.Norm a * GaussianInt.Norm b) ∧
    (∀ a b : HurwitzInt, HurwitzInt.SameParity a → HurwitzInt.SameParity b →
      HurwitzInt.Norm (HurwitzInt.Prod a b)
        = HurwitzInt.Norm a * HurwitzInt.Norm b) :=
  ⟨GaussianInt.norm_mult, fun _ _ ha hb => HurwitzInt.norm_mult_h ha hb⟩

/-- C4 witness at concrete operands of both types. -/
theorem claim_C4_witness :
    GaussianInt.Norm (GaussianInt.Prod ⟨2, 3⟩ ⟨4, 5⟩)
      = GaussianInt.Norm ⟨2, 3⟩ * GaussianInt.Norm ⟨4, 5⟩ ∧
    HurwitzInt.Norm (HurwitzInt.Prod ⟨1, 1, 1, 1⟩ ⟨1, 1, 1, 3⟩)
      = HurwitzInt.Norm ⟨1, 1, 1, 1⟩ * HurwitzInt.Norm ⟨1, 1, 1, 3⟩ :=
  ⟨claim_C4.1 ⟨2, 3⟩ ⟨4, 5⟩,
    claim_C4.2 ⟨1, 1, 1, 1⟩ ⟨1, 1, 1, 3⟩ (by decide) (by decide)⟩

end BigComplex
namespace BigComplex

/-- C5 (amended): whenever GCD or GCRD actually returns a value (which
requires both inputs nonzero, since a zero working divisor makes the inner
division panic, and for GCRD also requires the loop to terminate), the
returned value right-divides both original inputs with a zero Div
remainder. Hurwitz inputs carry the representation parity invariant. -/
theorem claim_C5 :
    (∀ (fuel : ℕ) (a b g : GaussianInt), GaussianInt.GCD fuel a b = some g →
      (∃ m, GaussianInt.Div a g = some (m, ⟨0, 0⟩)) ∧
      (∃ m, GaussianInt.Div b g = some (m, ⟨0, 0⟩))) ∧
    (∀ (fuel : ℕ) (a b g : HurwitzInt),
      HurwitzInt.SameParity a → HurwitzInt.SameParity b →
      HurwitzInt.GCRD fuel a b = some g →
      (∃ m, HurwitzInt.Div a g = some (m, ⟨0, 0, 0, 0⟩)) ∧
      (∃ m, HurwitzInt.Div b g = some (m, ⟨0, 0, 0, 0⟩))) :=
  ⟨fun fuel a b g h =>
    ⟨(GaussianInt.gcd_divides fuel a b g h).2.1,
      (GaussianInt.gcd_divides fuel a b g h).2.2⟩,
    fun fuel a b g hpa hpb h =>
    ⟨(HurwitzInt.gcrd_divides fuel a b g hpa hpb h).2.2.1,
      (HurwitzInt.gcrd_divides fuel a b g hpa hpb h).2.2.2⟩⟩

/-- C5 counterexample: at the input pair (0, 1), which is not both zero,
the norm swap makes the loop divide by the zero operand, the division
panics, and no value is returned at all (none for every fuel shown at fuel
10), so no returned value can divide the inputs. -/
theorem claim_C5_cex :
    GaussianInt.GCD 10 ⟨0, 0⟩ ⟨1, 0⟩ = none ∧
    ¬ ∃ g : GaussianInt, GaussianInt.GCD 10 ⟨0, 0⟩ ⟨1, 0⟩ = some g := by
  have h : GaussianInt.GCD 10 ⟨0, 0⟩ ⟨1, 0⟩ = none := by with_unfolding_all decide
  exact ⟨h, fun ⟨g, hg⟩ => by rw [h] at hg; exact Option.noConfusion hg⟩

/-- C5 witness: GCD((1+2i), (5+6i)) returns i, which divides both, and
GCRD(2, 1+i) returns 1+i, which right-divides both. -/
theorem claim_C5_witness :
    ((∃ m, GaussianInt.Div ⟨1, 2⟩ ⟨0, 1⟩ = some (m, ⟨0, 0⟩)) ∧
      (∃ m, GaussianInt.Div ⟨5, 6⟩ ⟨0, 1⟩ = some (m, ⟨0, 0⟩))) ∧
    ((∃ m, HurwitzInt.Div ⟨4, 0, 0, 0⟩ ⟨2, 2, 0, 0⟩ = some (m, ⟨0, 0, 0, 0⟩)) ∧
      (∃ m, HurwitzInt.Div ⟨2, 2, 0, 0⟩ ⟨2, 2, 0, 0⟩ = some (m, ⟨0, 0, 0, 0⟩))) :=
  ⟨claim_C5.1 10 ⟨1, 2⟩ ⟨5, 6⟩ ⟨0, 1⟩ (by with_unfolding_all decide),
    claim_C5.2 10 ⟨4, 0, 0, 0⟩ ⟨2, 2, 0, 0⟩ ⟨2, 2, 0, 0⟩
      (by decide) (by decide) (by with_unfolding_all decide)⟩

/-- C6: the Gaussian Euclidean loop terminates. Every successful division
step produces a remainder of non-negative norm strictly below the norm of
the working divisor; with both inputs nonzero the loop returns within any
fuel beyond the norms; and a zero operand makes the loop stop immediately
with the embedded division panic (none), so no input diverges. -/
theorem claim_C6 :
    (∀ ac bc q r : GaussianInt, GaussianInt.Div ac bc = some (q, r) →
      0 ≤ GaussianInt.Norm r ∧ GaussianInt.Norm r < GaussianInt.Norm bc) ∧
    (∀ (fuel : ℕ) (a b : GaussianInt), a ≠ ⟨0, 0⟩ → b ≠ ⟨0, 0⟩ →
      (GaussianInt.Norm a).toNat + (GaussianInt.Norm b).toNat < fuel →
      (GaussianInt.GCD fuel a b).isSome = true) ∧
    (∀ (fuel : ℕ) (a : GaussianInt),
      GaussianInt.GCD fuel a ⟨0, 0⟩ = none ∧ GaussianInt.GCD fuel ⟨0, 0⟩ a = none) :=
  ⟨fun _ _ _ r h => ⟨GaussianInt.norm_nonneg' r, GaussianInt.div_rem_bound h⟩,
    GaussianInt.gcd_total,
    fun fuel a => ⟨GaussianInt.gcd_zero_right fuel a, GaussianInt.gcd_zero_left fuel a⟩⟩

/-- C6 witness: a concrete division step and a terminating GCD run. -/
theorem claim_C6_witness :
    (0 ≤ GaussianInt.Norm ⟨0, -1⟩ ∧
      GaussianInt.Norm ⟨0, -1⟩ < GaussianInt.Norm ⟨2, -1⟩) ∧
    (GaussianInt.GCD 100 ⟨1, 2⟩ ⟨5, 6⟩).isSome = true :=
  ⟨claim_C6.1 ⟨7, 3⟩ ⟨2, -1⟩ ⟨2, 3⟩ ⟨0, -1⟩ (by with_unfolding_all decide),
    claim_C6.2.1 100 ⟨1, 2⟩ ⟨5, 6⟩ (by decide) (by decide) (by decide)⟩

/-- C7: dividing by a zero operand never returns a quotient: the division
fails fast (the embedded big.Float panic, none) for both types. -/
theorem claim_C7 :
    (∀ a : GaussianInt, GaussianInt.Div a ⟨0, 0⟩ = none) ∧
    (∀ h : HurwitzInt, HurwitzInt.Div h ⟨0, 0, 0, 0⟩ = none) :=
  ⟨GaussianInt.div_zero_right, HurwitzInt.div_zero_right_h⟩

/-- C8: conjugation is an involution, and the product of a value with its
conjugate is purely real with real part the norm; in the Hurwitz doubled
representation the real slot holds twice the norm, the true real part
being the norm, and the Hurwitz product identity carries the parity
invariant. -/
theorem claim_C8 :
    (∀ g : GaussianInt, GaussianInt.Conj (GaussianInt.Conj g) = g ∧
      GaussianInt.Prod g (GaussianInt.Conj g) = ⟨GaussianInt.Norm g, 0⟩) ∧
    (∀ h : HurwitzInt, HurwitzInt.Conj (HurwitzInt.Conj h) = h ∧
      (HurwitzInt.SameParity h →
        HurwitzInt.Prod h (HurwitzInt.Conj h) = ⟨2 * HurwitzInt.Norm h, 0, 0, 0⟩)) :=
  ⟨fun g => ⟨GaussianInt.conj_conj g, GaussianInt.prod_conj_self g⟩,
    fun h => ⟨HurwitzInt.conj_conj_h h, fun hs => HurwitzInt.prod_conj_self_h hs⟩⟩

/-- C8 witness at the half-integer quaternion with doubled components
(1,1,1,1). -/
theorem claim_C8_witness :
    HurwitzInt.Prod ⟨1, 1, 1, 1⟩ (HurwitzInt.Conj ⟨1, 1, 1, 1⟩)
      = ⟨2 * HurwitzInt.Norm ⟨1, 1, 1, 1⟩, 0, 0, 0⟩ :=
  (claim_C8.2 ⟨1, 1, 1, 1⟩).2 (by decide)

/-- C9: IsOne returns true exactly when the real part is strictly positive
and the imaginary part is zero; in particular it accepts R = 5, I = 0. -/
theorem claim_C9 :
    (∀ g : GaussianInt, GaussianInt.IsOne g = true ↔ 0 < g.R ∧ g.I = 0) ∧
    GaussianInt.IsOne ⟨5, 0⟩ = true := by
  constructor
  · intro g
    simp [GaussianInt.IsOne]
  · decide

/-- C10: on a Hurwitz integer with all doubled components odd (true
half-integer scalars), every ValInt component is the rounding of an exact
half, which truncates toward zero: a non-negative half t + 1/2 gives t and
a negative half t + 1/2 with t < 0 gives t + 1; in particular doubled
(1,1,1,1) gives (0,0,0,0) and doubled (3,3,3,3) gives (1,1,1,1). -/
theorem claim_C10 :
    (∀ h : HurwitzInt, HurwitzInt.ValInt h
      = (roundFloat ((h.dblR : ℚ) / 2), roundFloat ((h.dblI : ℚ) / 2),
          roundFloat ((h.dblJ : ℚ) / 2), roundFloat ((h.dblK : ℚ) / 2))) ∧
    (∀ c t : ℤ, c = 2 * t + 1 → 0 ≤ t → roundFloat ((c : ℚ) / 2) = t) ∧
    (∀ c t : ℤ, c = 2 * t + 1 → t < 0 → roundFloat ((c : ℚ) / 2) = t + 1) ∧
    HurwitzInt.ValInt ⟨1, 1, 1, 1⟩ = (0, 0, 0, 0) ∧
    HurwitzInt.ValInt ⟨3, 3, 3, 3⟩ = (1, 1, 1, 1) := by
  refine ⟨fun _ => rfl, ?_, ?_, ?_, ?_⟩
  · intro c t hc ht
    rw [show ((c : ℚ)) / 2 = (t : ℚ) + 1 / 2 by rw [hc]; push_cast; ring]
    exact roundFloat_half_nonneg t ht
  · intro c t hc ht
    rw [show ((c : ℚ)) / 2 = (t : ℚ) + 1 / 2 by rw [hc]; push_cast; ring]
    exact roundFloat_half_neg t ht
  · with_unfolding_all decide
  · with_unfolding_all decide

/-- C10 witness: 5/2 rounds to 2 and -5/2 rounds to -2, both toward
zero. -/
theorem claim_C10_witness :
    roundFloat (((5 : ℤ) : ℚ) / 2) = 2 ∧ roundFloat (((-5 : ℤ) : ℚ) / 2) = -3 + 1 :=
  ⟨claim_C10.2.1 5 2 (by norm_num) (by norm_num),
    claim_C10.2.2.1 (-5) (-3) (by norm_num) (by norm_num)⟩

end BigComplex
